import Mathlib

/-!
Shallow embedding of the segmented fetch-and-reassembly engine of the
`downloader-rs` repository, together with proofs settling the frozen claims
about its specification.

Sources embedded (file paths relative to the repository root):
* `src/download/playlist/playlist.rs` — playlist parsing (`parse_playlist_master`,
  `parse_playlist_segments`) and the job driver `download_playlist`;
* `src/download/playlist/segment.rs` — `Segment`, `Segment::download`,
  `Segment::finished`, `download_segments` (the wave/retry scheduler);
* `src/download/video/range.rs` — `SegmentedVideo::new` (range planner),
  `VideoSegment::download`, `SegmentedVideo::combine` (reassembly).

Modelling conventions:
* Rust `&str` values are embedded as `List Char` (`Str`); the byte/char
  distinction is immaterial because every index computed by the source comes
  from `find` on the same string (ASCII in all concrete inputs).
* A Rust panic (`unwrap` on `None`/`Err`, out-of-bounds index, out-of-order
  slice) is the `Outcome.crash` result; a returned `Err(..)` is `Outcome.fail`.
* `f64` durations are embedded as `ℚ`: the parser is modelled on the decimal
  fragment of Rust's float grammar (`[sign] digits ['.' digits*] | [sign] '.' digits`);
  no claim depends on binary-float rounding.
* `i64`/`i32`/`u64` are embedded as `Int`/`Nat` with the `i64` range check kept
  in the integer parser; no counter in the claims approaches the word size.
* The filesystem is an association list keyed by path; `File::create` is
  modelled as prepending (newest binding wins on lookup), which captures its
  truncating-overwrite behaviour.
* Network fetches are oracles `Str → Option Bytes` (`none` = transport error),
  indexed by wave number where the source may retry across waves.
-/

namespace Downloader

/-- Rust `&str`, embedded as a list of characters. -/
abbrev Str := List Char

/-- Raw bytes of a file or a network response. -/
abbrev Bytes := List Nat

/-- Helper to write `Str` literals. -/
def ofStr (s : String) : Str := s.data

/-- Result of running a piece of Rust code that can panic or return `Err`:
`crash` models a panic (`unwrap`, index out of bounds), `fail` a returned
`Err(..)` value. -/
inductive Outcome (α : Type) where
  | crash : Outcome α
  | fail : Outcome α
  | ok : α → Outcome α
deriving DecidableEq, Repr

/-- Rust `str::starts_with`. -/
def strStartsWith (s pat : Str) : Bool := pat.isPrefixOf s

/-- Rust `str::find` for a substring pattern: index of the first occurrence. -/
def strFind (s pat : Str) : Option Nat :=
  match s with
  | [] => if pat = [] then some 0 else none
  | _ :: rest =>
    if pat.isPrefixOf s then some 0
    else (strFind rest pat).map (· + 1)

/-- Rust `str::find` for a single character. -/
def strFindChar (s : Str) (c : Char) : Option Nat := strFind s [c]

/-- Rust slice `s[a..b]` (the source only forms slices with `a ≤ b ≤ s.len()`
obtained from `find`; an out-of-order slice panics in Rust and yields `[]`
here, which the callers below turn into a crash through a failed parse). -/
def strSlice (s : Str) (a b : Nat) : Str := (s.drop a).take (b - a)

/-- Rust `str::rsplit_once(c)`: split at the last occurrence of `c`. -/
def strRSplitOnce (s : Str) (c : Char) : Option (Str × Str) :=
  match strFindChar s.reverse c with
  | none => none
  | some i =>
    let cut := s.length - 1 - i
    some (s.take cut, s.drop (cut + 1))

/-- Decimal digit run to a number; `none` unless the string is a nonempty
all-digit run. -/
def digitsToNat? (s : Str) : Option Nat :=
  if s = [] then none
  else if s.all (·.isDigit) then
    some (s.foldl (fun acc c => acc * 10 + (c.toNat - 48)) 0)
  else none

/-- Rust `str::parse::<i64>()`: optional sign, nonempty digit run, `i64`
range check. -/
def parseI64 (s : Str) : Option Int :=
  match s with
  | '+' :: rest =>
    (digitsToNat? rest).bind fun n =>
      if (n : Int) ≤ 2 ^ 63 - 1 then some (n : Int) else none
  | '-' :: rest =>
    (digitsToNat? rest).bind fun n =>
      if (n : Int) ≤ 2 ^ 63 then some (-(n : Int)) else none
  | _ =>
    (digitsToNat? s).bind fun n =>
      if (n : Int) ≤ 2 ^ 63 - 1 then some (n : Int) else none

/-- Rust `str::parse::<f64>()`, restricted to the finite decimal forms
`[sign] digits`, `[sign] digits '.' digits*`, `[sign] '.' digits`
(the `inf`/`nan`/exponent forms never appear in a playlist duration). -/
def parseF64 (s : Str) : Option ℚ :=
  let core : Str → Option ℚ := fun t =>
    match strFindChar t '.' with
    | none => (digitsToNat? t).map (fun n => (n : ℚ))
    | some i =>
      let intPart := t.take i
      let fracPart := t.drop (i + 1)
      if (strFindChar fracPart '.').isSome then none
      else if intPart = [] ∧ fracPart = [] then none
      else if ¬ intPart.all (·.isDigit) ∨ ¬ fracPart.all (·.isDigit) then none
      else
        let ip : ℚ := (intPart.foldl (fun acc c => acc * 10 + (c.toNat - 48)) 0 : Nat)
        let fp : ℚ := (fracPart.foldl (fun acc c => acc * 10 + (c.toNat - 48)) 0 : Nat)
        if intPart = [] ∧ fracPart = [] then none
        else some (ip + fp / ((10 : ℚ) ^ fracPart.length))
  match s with
  | '+' :: rest => core rest
  | '-' :: rest => (core rest).map (fun q => -q)
  | _ => core s

/-- Split a string at every newline character (`n` newlines give `n + 1`
pieces). -/
def splitNl : Str → List Str
  | [] => [[]]
  | c :: rest =>
    if c = '\n' then [] :: splitNl rest
    else
      match splitNl rest with
      | [] => [[c]]
      | l :: ls => (c :: l) :: ls

/-- Strip one trailing carriage return, as Rust `str::lines` does. -/
def stripCr (l : Str) : Str :=
  if l.getLast? = some '\r' then l.dropLast else l

/-- Rust `str::lines()`: split on `'\n'`, drop a final empty piece, strip a
trailing `'\r'` from each line. -/
def rustLines (s : Str) : List Str :=
  let ps := splitNl s
  (if ps.getLast? = some [] then ps.dropLast else ps).map stripCr

/-! ### URL model

`url::Url::parse` succeeds on absolute URLs; we model "absolute" as containing
a `"://"` scheme separator after a nonempty scheme, which is what every URL in
this domain (http/https) satisfies. `Url::path` is the part starting at the
first `'/'` after the authority (`"/"` when absent); queries and fragments do
not occur in the embedded inputs. -/

/-- Does `Url::parse` succeed on this string (absolute URL)? -/
def urlParseOk (s : Str) : Bool :=
  match strFind s (ofStr "://") with
  | some i => decide (0 < i)
  | none => false

/-- `Url::path()` of an absolute URL. -/
def urlPath (u : Str) : Str :=
  match strFind u (ofStr "://") with
  | some i =>
    let rest := u.drop (i + 3)
    match strFindChar rest '/' with
    | some j => rest.drop j
    | none => ofStr "/"
  | none => u

/-- The `match Url::parse(uri) { Ok -> uri, Err -> Url::parse(prefix + uri).unwrap() }`
pattern shared by both parsers: resolve a possibly relative URI against the
base prefix, panicking when even the prefixed string is not a URL. -/
def resolveUri (pre uri : Str) : Outcome Str :=
  if urlParseOk uri then .ok uri
  else if urlParseOk (pre ++ uri) then .ok (pre ++ uri) else .crash

/-! ### Data model (`segment.rs`, `playlist.rs`) -/

/-- `Segment` of `src/download/playlist/segment.rs` (the `Url` field is kept
as its string). -/
structure Segment where
  name : Str
  uri : Str
  duration : ℚ
  downloaded : Bool
deriving DecidableEq, Repr

/-- `Playlist` of `src/download/playlist/playlist.rs`. -/
structure Playlist where
  total_duration : ℚ
  segments : List Segment
deriving DecidableEq, Repr

/-- `Stream` of `src/download/playlist/playlist.rs`: one master-manifest
variant. -/
structure Stream where
  playlist_url : Str
  bandwidth : Int
deriving DecidableEq, Repr

/-- The segment display name computed in `parse_playlist_segments`:
`uri.path().rsplit_once("/")`, falling back to the whole path. -/
def segDisplayName (uri : Str) : Str :=
  match strRSplitOnce (urlPath uri) '/' with
  | some (_, name) => name
  | none => urlPath uri

/-- One `#EXTINF` entry of `parse_playlist_segments` (playlist.rs lines 24-42):
`line.find(":")`, `line.find(",")`, duration parse and the following line as
URI, each `unwrap` a potential panic. -/
def extinfEntry (lines : List Str) (i : Nat) (line : Str) (pre : Str) :
    Outcome Segment :=
  match strFindChar line ':' with
  | none => .crash
  | some idx_start =>
    match strFindChar line ',' with
    | none => .crash
    | some idx_end =>
      match parseF64 (strSlice line (idx_start + 1) idx_end) with
      | none => .crash
      | some duration =>
        if h : i + 1 < lines.length then
          match resolveUri pre (lines.get ⟨i + 1, h⟩) with
          | .crash => .crash
          | .fail => .fail
          | .ok uri => .ok ⟨segDisplayName uri, uri, duration, false⟩
        else .crash

/-- The `lines.iter().enumerate().for_each` loop of `parse_playlist_segments`,
collecting segments in document order.  The enumeration is realised by
recursion on the suffix of lines not yet visited (`rest = lines.drop i`). -/
def segmentsGo (lines : List Str) (pre : Str) :
    Nat → List Str → List Segment → Outcome (List Segment)
  | _, [], acc => .ok acc
  | i, line :: rest, acc =>
    if strStartsWith line (ofStr "#EXTINF") then
      match extinfEntry lines i line pre with
      | .crash => .crash
      | .fail => .fail
      | .ok s => segmentsGo lines pre (i + 1) rest (acc ++ [s])
    else segmentsGo lines pre (i + 1) rest acc

/-- `parse_playlist_segments` (playlist.rs lines 19-50): collect all `#EXTINF`
entries, total duration is the sum of the segment durations.  Note the source
performs no emptiness check: zero entries yield `Ok` with an empty plan. -/
def parse_playlist_segments (playlist pre : Str) : Outcome Playlist :=
  match segmentsGo (rustLines playlist) pre 0 (rustLines playlist) [] with
  | .crash => .crash
  | .fail => .fail
  | .ok segments =>
    .ok ⟨(segments.map (·.duration)).sum, segments⟩

/-- One `#EXT-X-STREAM-INF` entry of `parse_playlist_master` (playlist.rs
lines 58-73).  Note the slice lower bound `idx_start + 1 + search.len()`
copied from the source: it starts one character *after* the end of
`"BANDWIDTH="`, so the first character of the bandwidth value is dropped. -/
def masterEntry (lines : List Str) (i : Nat) (line : Str) (pre : Str) :
    Outcome Stream :=
  match strFind line (ofStr "BANDWIDTH=") with
  | none => .crash
  | some idx_start =>
    match strFindChar (line.drop idx_start) ',' with
    | none => .crash
    | some rel =>
      let idx_end := idx_start + rel
      match parseI64 (strSlice line (idx_start + 1 + (ofStr "BANDWIDTH=").length) idx_end) with
      | none => .crash
      | some bandwidth =>
        if h : i + 1 < lines.length then
          match resolveUri pre (lines.get ⟨i + 1, h⟩) with
          | .crash => .crash
          | .fail => .fail
          | .ok uri => .ok ⟨uri, bandwidth⟩
        else .crash

/-- The `for_each` loop of `parse_playlist_master`, collecting variant streams
in document order (recursion on the unvisited suffix, as in `segmentsGo`). -/
def masterGo (lines : List Str) (pre : Str) :
    Nat → List Str → List Stream → Outcome (List Stream)
  | _, [], acc => .ok acc
  | i, line :: rest, acc =>
    if strStartsWith line (ofStr "#EXT-X-STREAM-INF") then
      match masterEntry lines i line pre with
      | .crash => .crash
      | .fail => .fail
      | .ok s => masterGo lines pre (i + 1) rest (acc ++ [s])
    else masterGo lines pre (i + 1) rest acc

/-- Rust `Iterator::max_by_key`: maximum by key, returning the **last** of
several equally maximal elements (per its documentation). -/
def maxByKeyLast (key : α → Int) : List α → Option α
  | [] => none
  | x :: xs => some (xs.foldl (fun best y => if key best ≤ key y then y else best) x)

/-- `parse_playlist_master` (playlist.rs lines 53-78): collect the variants,
then `streams.into_iter().max_by_key(|stream| stream.bandwidth).unwrap()` —
the `unwrap` panics on an empty variant set. -/
def parse_playlist_master (playlist pre : Str) : Outcome Stream :=
  match masterGo (rustLines playlist) pre 0 (rustLines playlist) [] with
  | .crash => .crash
  | .fail => .fail
  | .ok streams =>
    match maxByKeyLast (·.bandwidth) streams with
    | none => .crash
    | some s => .ok s

/-! ### Filesystem model

A flat store of files keyed by path.  `File::create` truncates, so writing is
modelled by prepending a binding (newest wins on lookup).  Directory existence
is tracked separately where a claim needs it (`FsState` below). -/

/-- File store: path ↦ contents, newest binding first. -/
abbrev Fs := List (Str × Bytes)

/-- Path lookup (`Path::exists` / `File::open`). -/
def fsLookup : Fs → Str → Option Bytes
  | [], _ => none
  | (k, v) :: rest, p => if k = p then some v else fsLookup rest p

/-- `File::create` followed by writing `b` (truncating overwrite). -/
def fsWrite (fs : Fs) (p : Str) (b : Bytes) : Fs := (p, b) :: fs

/-! ### `Segment::download` and the wave scheduler (`segment.rs`) -/

/-- Result of one `Segment::download` call (segment.rs lines 63-103):
the possibly updated segment, the possibly updated file store, whether a
network fetch was issued, and whether the call returned `Ok`.  The fetch
oracle returns `none` for a transport or HTTP-status error.  File creation
and the write of fetched bytes are modelled as succeeding (their failure is
just another `Err` return, identical to a failed fetch for every claim). -/
structure DlResult where
  seg : Segment
  fs : Fs
  fetched : Bool
  isOk : Bool
deriving DecidableEq, Repr

/-- `Segment::download` (segment.rs lines 63-103). -/
def Segment.download (seg : Segment) (folder_name : Str) (fs : Fs)
    (fetch : Str → Option Bytes) : DlResult :=
  if seg.downloaded then ⟨seg, fs, false, true⟩
  else
    let seg_name := folder_name ++ ofStr "/" ++ seg.name
    if (fsLookup fs seg_name).isSome then
      ⟨{ seg with downloaded := true }, fs, false, true⟩
    else
      match fetch seg.uri with
      | none => ⟨seg, fs, true, false⟩
      | some bytes =>
        ⟨{ seg with downloaded := true }, fsWrite fs seg_name bytes, true, true⟩

/-- The two shared counters of `SegmentDownloadArgs`, mutated inside the
double-mutex critical section of `Segment::finished` (segment.rs lines
37-60): `downloaded_segments: i32` and `downloaded_duration: f64`. -/
structure Counters where
  downloaded_segments : Int
  downloaded_duration : ℚ
deriving DecidableEq, Repr

/-- One progress observation, printed by `Segment::finished` while both
mutexes are held: the completed count, the total count and the segment
label (the printed durations/percentages are derived from these fields). -/
structure Obs where
  count : Int
  total : Int
  label : Str
deriving DecidableEq, Repr

/-- State threaded through one wave of `download_segments`: file store,
shared counters, emitted observations, and the retry list collected by the
`for task in tasks` loop. -/
structure WaveState where
  fs : Fs
  counters : Counters
  obs : List Obs
  retry : List Segment
deriving DecidableEq, Repr

/-- One spawned task of `download_segments` (segment.rs lines 160-179) plus
its entry in the collection loop (lines 184-197): run `Segment::download`;
on `Ok` with the segment downloaded run `Segment::finished` (increment both
counters, emit an observation); on `Ok` without the downloaded flag requeue
the segment for the next wave; drop the segment on `Err`.  The concurrency
permit is acquired before the fetch and released before `finished`; the
counter updates are serialised by the mutexes, so a concurrent wave is some
sequential order of these steps (see the claims about orderings). -/
def waveStep (folder_name : Str) (fetch : Str → Option Bytes) (total : Int)
    (st : WaveState) (seg : Segment) : WaveState :=
  let r := seg.download folder_name st.fs fetch
  if r.isOk then
    if r.seg.downloaded then
      let c : Counters := ⟨st.counters.downloaded_segments + 1,
                           st.counters.downloaded_duration + r.seg.duration⟩
      { fs := r.fs, counters := c,
        obs := st.obs ++ [⟨c.downloaded_segments, total, r.seg.name⟩],
        retry := st.retry }
    else
      { fs := r.fs, counters := st.counters, obs := st.obs,
        retry := st.retry ++ [r.seg] }
  else
    { fs := r.fs, counters := st.counters, obs := st.obs, retry := st.retry }

/-- One wave: every segment of the wave is spawned and collected
(segment.rs lines 160-197). -/
def runWave (folder_name : Str) (fetch : Str → Option Bytes) (total : Int)
    (fs : Fs) (counters : Counters) (segs : List Segment) : WaveState :=
  segs.foldl (waveStep folder_name fetch total) ⟨fs, counters, [], []⟩

/-- The retry-wave loop of `download_segments` (segment.rs lines 157-204):
`while segments.len() > 0 && tries < options.max_download_retries`.  The
loop is realised by recursion on `max_download_retries - tries`, which the
source decrements by exactly one per wave (`tries += 1`).  The fetch oracle
is indexed by the wave number `tries`, letting a stubbed fetcher behave
differently on successive attempts. -/
def wavesLoop (folder_name : Str) (fetch : Nat → Str → Option Bytes)
    (total : Int) :
    Nat → Nat → Fs → Counters → List Segment → Fs × Counters × List Obs
  | _, 0, fs, counters, _ => (fs, counters, [])
  | tries, remaining + 1, fs, counters, segs =>
    if segs.isEmpty then (fs, counters, [])
    else
      let w := runWave folder_name (fetch tries) total fs counters segs
      let (fs', counters', obs') :=
        wavesLoop folder_name fetch total (tries + 1) remaining w.fs w.counters w.retry
      (fs', counters', w.obs ++ obs')

/-- CLI options (`src/options.rs`). -/
structure Options where
  max_parallel_downloads : Nat
  max_download_retries : Nat
  block_size : Nat
deriving DecidableEq, Repr

/-- `download_segments` (segment.rs lines 143-207).  The source function
returns `Ok(())` unconditionally — dropped (`Err`) segments are only
logged — so the model returns the final file store, counters and emitted
observations with no error component. -/
def download_segments (playlist : Playlist) (folder_name : Str)
    (options : Options) (fetch : Nat → Str → Option Bytes) (fs : Fs) :
    Fs × Counters × List Obs :=
  wavesLoop folder_name fetch (playlist.segments.length : Int)
    0 options.max_download_retries fs ⟨0, 0⟩ playlist.segments

/-! ### Range-mode planner and reassembly (`range.rs`) -/

/-- `VideoSegment` (range.rs lines 35-41) without the shared `Arc<Video>`
back-pointer: the planning/reassembly data is `id`, `start` and `end`.
The source issues the HTTP header `Range: bytes={start}-{end}`, whose two
bounds are inclusive. -/
structure VideoSegment where
  id : Nat
  start : Nat
  «end» : Nat
deriving DecidableEq, Repr

/-- `VideoSegment::size` (range.rs lines 48-50). -/
def VideoSegment.size (s : VideoSegment) : Nat := s.«end» - s.start

/-- The planning loop of `SegmentedVideo::new` (range.rs lines 92-103):
`start = 0; end = block_size; while end < size { push(start, end);
start = end + 1; end = start + block_size }; push(start, size)`, with
`id = segments.len()` at each push.  Throughout, `end = start + block_size`,
so the loop is recursion on `start`; it terminates because `start` strictly
increases while bounded by `size`, which is realised by structural recursion
on the fuel `size - start` (the fuel is passed as `size` at the top entry
and is never exhausted — see `segLoopGo_fuel`). -/
def segLoopGo (size block_size : Nat) :
    Nat → Nat → List VideoSegment → List VideoSegment
  | fuel, start, acc =>
    if start + block_size < size then
      match fuel with
      | 0 => acc
      | fuel' + 1 =>
        segLoopGo size block_size fuel' (start + block_size + 1)
          (acc ++ [⟨acc.length, start, start + block_size⟩])
    else acc ++ [⟨acc.length, start, size⟩]

/-- The segment list built by `SegmentedVideo::new` (range.rs lines 89-108)
for a video of `size` bytes and the given `block_size`. -/
def mkSegments (size block_size : Nat) : List VideoSegment :=
  segLoopGo size block_size size 0 []

/-- Insertion by ascending key (helper for `sortByKey`). -/
def insertByKey (key : α → Nat) (x : α) : List α → List α
  | [] => [x]
  | y :: ys => if key x ≤ key y then x :: y :: ys else y :: insertByKey key x ys

/-- Stable sort by a `Nat` key: the model of `Vec::sort_by(|a, b|
a.id.cmp(&b.id))` (range.rs lines 173 and 184).  On the lists it is applied
to, all keys are distinct, so any sorting algorithm yields the same list. -/
def sortByKey (key : α → Nat) : List α → List α
  | [] => []
  | x :: xs => insertByKey key x (sortByKey key xs)

/-- The concatenation loop of `SegmentedVideo::combine` (range.rs lines
188-193): open `folder/{id}.ts` for each segment in order and append its
bytes; a missing file is an `Err` return from `File::open`. -/
def combineGo (store : Nat → Option Bytes) : List VideoSegment → Outcome Bytes
  | [] => .ok []
  | s :: rest =>
    match store s.id with
    | none => .fail
    | some b =>
      match combineGo store rest with
      | .crash => .crash
      | .fail => .fail
      | .ok tail => .ok (b ++ tail)

/-- `SegmentedVideo::combine` (range.rs lines 178-196): reject when the
collected segment count differs from `total_segments`, sort by id, then
concatenate the per-id scratch files into the output.  `store id` is the
content of `folder/{id}.ts`. -/
def combine (segments : List VideoSegment) (total_segments : Nat)
    (store : Nat → Option Bytes) : Outcome Bytes :=
  if segments.length ≠ total_segments then .fail
  else combineGo store (sortByKey (·.id) segments)

/-- `VideoSegment::download` (range.rs lines 52-77): skip when
`folder/{id}.ts` exists, otherwise fetch the inclusive byte range and write
the file.  Returns the updated store, whether a fetch was issued, and
whether the call returned `Ok`. -/
def VideoSegment.download (seg : VideoSegment) (store : Nat → Option Bytes)
    (fetchRange : Nat × Nat → Option Bytes) :
    (Nat → Option Bytes) × Bool × Bool :=
  if (store seg.id).isSome then (store, false, true)
  else
    match fetchRange (seg.start, seg.«end») with
    | none => (store, true, false)
    | some bytes => (fun n => if n = seg.id then some bytes else store n, true, true)

/-! ### The playlist job driver (`playlist.rs` `download_playlist`) -/

/-- Filesystem with directories, for the claims about the scratch folder. -/
structure FsState where
  dirs : List Str
  files : Fs
deriving Repr

/-- The merge loop of `download_playlist` (playlist.rs lines 161-179): for
each segment, in manifest order, open `folder_name/name` and append its
bytes to the output file; a missing or unopenable segment file is an early
`Err` return that leaves the partially written output in place.  `acc` is
the output contents written so far (the output file is re-stored after each
copy, modelling the incremental writes to the open file). -/
def mergeGo (output folder_name : Str) :
    Fs → Bytes → List Segment → Outcome Unit × Fs
  | fs, _, [] => (.ok (), fs)
  | fs, acc, seg :: rest =>
    match fsLookup fs (folder_name ++ ofStr "/" ++ seg.name) with
    | none => (.fail, fs)
    | some b =>
      mergeGo output folder_name (fsWrite fs output (acc ++ b)) (acc ++ b) rest

/-- `download_playlist` (playlist.rs lines 129-182) after the playlist has
been parsed (the manifest download itself is network I/O outside these
claims): create the scratch folder `output + "_segments"` unless it exists,
run `download_segments`, create the output file, and concatenate the
segment files in manifest order.  The source contains no removal of the
scratch folder or its files on any path. -/
def download_playlist (playlist : Playlist) (output : Str) (options : Options)
    (fetch : Nat → Str → Option Bytes) (st : FsState) :
    Outcome Unit × FsState :=
  let folder_name := output ++ ofStr "_segments"
  let dirs := if folder_name ∈ st.dirs then st.dirs else folder_name :: st.dirs
  let dl := download_segments playlist folder_name options fetch st.files
  let withOut := fsWrite dl.1 output []
  let m := mergeGo output folder_name withOut [] playlist.segments
  (m.1, ⟨dirs, m.2⟩)

/-! ### Concurrency-permit model (`segment.rs` lines 160-180)

Each spawned task runs `semaphore.acquire().await` before
`segment.download(..)` and `std::mem::drop(permit)` right after it, before
`segment.finished(..)`.  A `tokio::sync::Semaphore` created with
`max_parallel_downloads` permits grants an acquire only while fewer than
that many permits are held.  The transition system below has one entry per
spawned task; `fetching` is the phase between acquire and drop (the network
transfer), `bookkeeping` the phase after the drop (the `finished` call). -/

/-- Phase of one spawned task. -/
inductive TaskPhase where
  | pending
  | fetching
  | bookkeeping
  | done
deriving DecidableEq, Repr

/-- State of one wave: the phase of every spawned task. -/
structure SchedState where
  tasks : List TaskPhase
deriving DecidableEq, Repr

/-- Number of tasks currently holding a permit during their network
transfer. -/
def inFlight (s : SchedState) : Nat :=
  s.tasks.countP (· = TaskPhase.fetching)

/-- One scheduling step.  `acquire` fires only while fewer than `c` permits
are held (the semaphore's contract); `release` is the `std::mem::drop(permit)`
before the completion bookkeeping; `finish` ends the bookkeeping. -/
inductive SchedStep (c : Nat) : SchedState → SchedState → Prop
  | acquire (s : SchedState) (i : Nat) (h : s.tasks.get? i = some .pending)
      (hc : inFlight s < c) : SchedStep c s ⟨s.tasks.set i .fetching⟩
  | release (s : SchedState) (i : Nat) (h : s.tasks.get? i = some .fetching) :
      SchedStep c s ⟨s.tasks.set i .bookkeeping⟩
  | finish (s : SchedState) (i : Nat) (h : s.tasks.get? i = some .bookkeeping) :
      SchedStep c s ⟨s.tasks.set i .done⟩

/-- Reachability in the scheduling system. -/
inductive SchedReach (c : Nat) (s₀ : SchedState) : SchedState → Prop
  | refl : SchedReach c s₀ s₀
  | tail {t u : SchedState} : SchedReach c s₀ t → SchedStep c t u →
      SchedReach c s₀ u

/-- The consecutive run `c+1, c+2, …, c+m` of counter values. -/
def intRangeFrom (c : Int) (m : Nat) : List Int :=
  (List.range m).map (fun (i : Nat) => c + 1 + (i : Int))
/-! ### Range-mode progress loop (`range.rs` `SegmentedVideo::download`) -/

/-- One progress line of the range scheduler (range.rs lines 143-148): the
new counter value, the total, and the id of the completed segment. -/
structure RangeObs where
  count : Int
  total : Int
  id : Nat
deriving DecidableEq, Repr

/-- The spawned tasks and the await/collect loop of `SegmentedVideo::download`
(range.rs lines 129-171): each task downloads its segment and, on success,
increments the shared counter under the mutex and prints a progress line;
the collector stops at the first `Err`.  As with the wave scheduler, a
concurrent execution is some sequential order of the mutex-guarded counter
updates, which the caller of this model chooses through the list order. -/
def rangeLoop (fetchRange : Nat × Nat → Option Bytes) (total : Int) :
    (Nat → Option Bytes) → Int → List VideoSegment →
    (Nat → Option Bytes) × Int × List RangeObs × Bool
  | store, count, [] => (store, count, [], true)
  | store, count, seg :: rest =>
    let d := seg.download store fetchRange
    if d.2.2 then
      let c := count + 1
      let r := rangeLoop fetchRange total d.1 c rest
      (r.1, r.2.1, ⟨c, total, seg.id⟩ :: r.2.2.1, r.2.2.2)
    else (d.1, count, [], false)
/-! ### Spec-side variant selection (for comparison with the code)

The following definitions follow the specification's words, not the source,
and exist solely to compare the code's selection against them: §4.1
"extracts, for each variant entry, a bandwidth value and a URI …
Selection policy: choose the variant with the maximum bandwidth value;
ties broken by first occurrence."  The bandwidth value is the full numeral
following `BANDWIDTH=` up to the comma. -/

/-- Maximum by key, ties broken by first occurrence (the spec's policy). -/
def maxByKeyFirst (key : α → Int) : List α → Option α
  | [] => none
  | x :: xs => some (xs.foldl (fun best y => if key best < key y then y else best) x)

/-- Modelled from the spec: one variant entry with the bandwidth value read
as the full numeral after `"BANDWIDTH="`. -/
def spec_masterEntry (lines : List Str) (i : Nat) (line : Str) (pre : Str) :
    Outcome Stream :=
  match strFind line (ofStr "BANDWIDTH=") with
  | none => .crash
  | some idx_start =>
    match strFindChar (line.drop idx_start) ',' with
    | none => .crash
    | some rel =>
      let idx_end := idx_start + rel
      match parseI64 (strSlice line (idx_start + (ofStr "BANDWIDTH=").length) idx_end) with
      | none => .crash
      | some bandwidth =>
        if h : i + 1 < lines.length then
          match resolveUri pre (lines.get ⟨i + 1, h⟩) with
          | .crash => .crash
          | .fail => .fail
          | .ok uri => .ok ⟨uri, bandwidth⟩
        else .crash

/-- Modelled from the spec: collect the variant entries in document order. -/
def spec_variantsGo (lines : List Str) (pre : Str) :
    Nat → List Str → List Stream → Outcome (List Stream)
  | _, [], acc => .ok acc
  | i, line :: rest, acc =>
    if strStartsWith line (ofStr "#EXT-X-STREAM-INF") then
      match spec_masterEntry lines i line pre with
      | .crash => .crash
      | .fail => .fail
      | .ok s => spec_variantsGo lines pre (i + 1) rest (acc ++ [s])
    else spec_variantsGo lines pre (i + 1) rest acc

/-- Modelled from the spec: select the maximum-bandwidth variant, first
occurrence on ties. -/
def spec_selectVariant (playlist pre : Str) : Outcome Stream :=
  match spec_variantsGo (rustLines playlist) pre 0 (rustLines playlist) [] with
  | .crash => .crash
  | .fail => .fail
  | .ok streams =>
    match maxByKeyFirst (·.bandwidth) streams with
    | none => .crash
    | some s => .ok s

/-! ### Concrete fixtures used by counterexamples and witnesses -/

/-- Base URI prefix used by the fixtures. -/
def preA : Str := ofStr "http://a/"

/-- Master manifest with document bandwidths 19 and 85; the code's slice
drops the first digit of each (9 and 5). -/
def docA : Str :=
  ofStr "#EXT-X-STREAM-INF:BANDWIDTH=19,R\nhttp://a/u1\n#EXT-X-STREAM-INF:BANDWIDTH=85,R\nhttp://a/u2"

/-- Master manifest whose two variants have equal bandwidth 77. -/
def docTie : Str :=
  ofStr "#EXT-X-STREAM-INF:BANDWIDTH=77,R\nhttp://a/u1\n#EXT-X-STREAM-INF:BANDWIDTH=77,R\nhttp://a/u2"

/-- Master manifest with a malformed (non-numeric) bandwidth field. -/
def docBadBw : Str := ofStr "#EXT-X-STREAM-INF:BANDWIDTH=x,R\nhttp://a/u1"

/-- Master manifest whose variant marker has no following URI line. -/
def docNoUriMaster : Str := ofStr "#EXT-X-STREAM-INF:BANDWIDTH=99,R"

/-- Media manifest with a segment line missing its duration. -/
def docNoDur : Str := ofStr "#EXTINF:,x\nhttp://a/s1"

/-- Media manifest whose segment marker has no following URI line. -/
def docNoUriSeg : Str := ofStr "#EXTINF:1,x"
/-- Playlist fixture with two segments, used by several witnesses. -/
def twoSegPlaylist : Playlist :=
  ⟨2, [⟨ofStr "a.ts", ofStr "http://a/a.ts", 1, false⟩,
       ⟨ofStr "b.ts", ofStr "http://a/b.ts", 1, false⟩]⟩
/-- One segment whose fetch fails on the first attempt. -/
def c3Segment : Segment := ⟨ofStr "s1", ofStr "http://a/s1", 1, false⟩

/-- Single-segment playlist for the retry experiment. -/
def c3Playlist : Playlist := ⟨1, [c3Segment]⟩

/-- Fetch stub that fails every task exactly once (wave 0) and succeeds on
every later attempt (`k = 1` in the claim's terms). -/
def c3Fetch : Nat → Str → Option Bytes :=
  fun w _ => if w = 0 then none else some [7]

/-! ### Closed form of the range planner -/

/-- The planning loop in closed form: starting at `start` with enough fuel,
it appends `(size - start) / (block_size + 1)` full chunks of inclusive span
`block_size + 1` and one final chunk ending at `size`. -/
theorem segLoopGo_eq (size S : Nat) :
    ∀ (fuel start : Nat) (acc : List VideoSegment), size - start ≤ fuel →
    segLoopGo size S fuel start acc =
      acc ++ ((List.range ((size - start) / (S + 1))).map
          (fun k => ⟨acc.length + k, start + k * (S + 1), start + k * (S + 1) + S⟩)
        ++ [⟨acc.length + (size - start) / (S + 1),
             start + ((size - start) / (S + 1)) * (S + 1), size⟩]) := by
  intro fuel
  induction fuel with
  | zero =>
    intro start acc h
    have hge : size ≤ start := by omega
    have hcond : ¬ (start + S < size) := by omega
    have hm : (size - start) / (S + 1) = 0 := by
      have : size - start = 0 := by omega
      simp [this]
    rw [segLoopGo]
    simp [hcond, hm]
  | succ fuel ih =>
    intro start acc h
    by_cases hcond : start + S < size
    · have hsub : size - (start + S + 1) ≤ fuel := by omega
      have hm : (size - start) / (S + 1) = (size - (start + S + 1)) / (S + 1) + 1 := by
        have h1 : S + 1 ≤ size - start := by omega
        have h2 : size - (start + S + 1) = size - start - (S + 1) := by omega
        rw [h2, ← Nat.div_eq_sub_div (by omega) h1]
      rw [segLoopGo]
      simp only [hcond, if_true]
      have hI := ih (start + S + 1)
        (acc ++ [(⟨acc.length, start, start + S⟩ : VideoSegment)]) hsub
      rw [hI, hm]
      rw [List.range_succ_eq_map]
      simp only [List.length_append, List.length_cons, List.length_nil,
        List.map_cons, List.map_map, List.append_assoc, List.cons_append,
        List.nil_append]
      have hmap : ∀ d : Nat, List.map
          (fun k => (⟨acc.length + 1 + k, start + S + 1 + k * (S + 1),
            start + S + 1 + k * (S + 1) + S⟩ : VideoSegment)) (List.range d) =
          List.map
            ((fun k => (⟨acc.length + k, start + k * (S + 1),
              start + k * (S + 1) + S⟩ : VideoSegment)) ∘ Nat.succ)
            (List.range d) := by
        intro d
        apply List.map_congr_left
        intro k _
        simp only [Function.comp_apply, VideoSegment.mk.injEq, Nat.succ_eq_add_one]
        refine ⟨by ring, by ring, by ring⟩
      simp only [VideoSegment.mk.injEq, List.cons.injEq, List.append_cancel_left_eq,
        hmap, List.append_cancel_left_eq]
      exact ⟨⟨by ring, by ring, by ring⟩, ⟨by ring, by ring, trivial⟩, trivial⟩
    · have hm : (size - start) / (S + 1) = 0 := by
        apply Nat.div_eq_of_lt
        omega
      rw [segLoopGo]
      simp [hcond, hm]

/-- `SegmentedVideo::new` in closed form. -/
theorem mkSegments_eq (size S : Nat) :
    mkSegments size S =
      (List.range (size / (S + 1))).map
          (fun k => ⟨k, k * (S + 1), k * (S + 1) + S⟩)
        ++ [⟨size / (S + 1), (size / (S + 1)) * (S + 1), size⟩] := by
  have := segLoopGo_eq size S size 0 [] (by omega)
  simpa using this

/-- The planner produces `size / (block_size + 1) + 1` tasks. -/
theorem mkSegments_length (size S : Nat) :
    (mkSegments size S).length = size / (S + 1) + 1 := by
  simp [mkSegments_eq]

/-- Task ids are exactly `0, 1, …, size / (S+1)` in order. -/
theorem mkSegments_map_id (size S : Nat) :
    (mkSegments size S).map (·.id) = List.range (size / (S + 1) + 1) := by
  rw [mkSegments_eq]
  rw [List.range_succ]
  simp only [List.map_append, List.map_map, List.map_cons, List.map_nil]
  congr 1
  exact List.map_id _

/-- Task ids are strictly increasing along the plan. -/
theorem mkSegments_id_strictSorted (size S : Nat) :
    (mkSegments size S).Pairwise (fun a b => a.id < b.id) := by
  have h := mkSegments_map_id size S
  have : ((mkSegments size S).map (·.id)).Pairwise (· < ·) := by
    rw [h]; exact List.pairwise_lt_range _
  rwa [List.pairwise_map] at this

/-! ### Sorting and reassembly lemmas -/

theorem insertByKey_perm (key : α → Nat) (x : α) (l : List α) :
    (insertByKey key x l).Perm (x :: l) := by
  induction l with
  | nil => simp [insertByKey]
  | cons y ys ih =>
    by_cases h : key x ≤ key y
    · simp [insertByKey, h]
    · simp only [insertByKey, h, if_false]
      exact (ih.cons y).trans (List.Perm.swap x y ys)

theorem sortByKey_perm (key : α → Nat) (l : List α) :
    (sortByKey key l).Perm l := by
  induction l with
  | nil => simp [sortByKey]
  | cons x xs ih =>
    exact ((insertByKey_perm key x (sortByKey key xs)).trans (ih.cons x))

theorem insertByKey_sorted (key : α → Nat) (x : α) (l : List α)
    (h : l.Pairwise (fun a b => key a ≤ key b)) :
    (insertByKey key x l).Pairwise (fun a b => key a ≤ key b) := by
  induction l with
  | nil => simp [insertByKey]
  | cons y ys ih =>
    rcases List.pairwise_cons.mp h with ⟨hy, hys⟩
    by_cases hxy : key x ≤ key y
    · simp only [insertByKey, hxy, if_true]
      refine List.pairwise_cons.mpr ⟨?_, h⟩
      intro b hb
      rcases List.mem_cons.mp hb with hb | hb
      · subst hb; exact hxy
      · exact le_trans hxy (hy b hb)
    · simp only [insertByKey, hxy, if_false]
      refine List.pairwise_cons.mpr ⟨?_, ih hys⟩
      intro b hb
      have hb' := (insertByKey_perm key x ys).mem_iff.mp hb
      rcases List.mem_cons.mp hb' with hb'' | hb''
      · subst hb''
        omega
      · exact hy b hb''

theorem sortByKey_sorted (key : α → Nat) (l : List α) :
    (sortByKey key l).Pairwise (fun a b => key a ≤ key b) := by
  induction l with
  | nil => simp [sortByKey]
  | cons x xs ih => exact insertByKey_sorted key x _ ih

/-- Two lists that are permutations of each other and both strictly sorted
by the same key are equal. -/
theorem perm_key_strict_eq (key : α → Nat) (l₁ l₂ : List α) (hp : l₁.Perm l₂)
    (h₁ : l₁.Pairwise (fun a b => key a < key b))
    (h₂ : l₂.Pairwise (fun a b => key a < key b)) : l₁ = l₂ := by
  haveI : IsAntisymm α (fun a b => key a < key b) :=
    ⟨fun a b hab hba => absurd (Nat.lt_trans hab hba) (Nat.lt_irrefl _)⟩
  exact List.eq_of_perm_of_sorted hp h₁ h₂

/-- A permutation of the plan, sorted by id, is the plan itself. -/
theorem sortByKey_perm_plan (size S : Nat) (l : List VideoSegment)
    (hp : l.Perm (mkSegments size S)) :
    sortByKey (·.id) l = mkSegments size S := by
  apply perm_key_strict_eq (·.id)
  · exact (sortByKey_perm _ l).trans hp
  · -- strictness: sorted by ≤ and ids are nodup (they come from `range`)
    have hsorted := sortByKey_sorted (·.id) l
    have hnodup : ((sortByKey (·.id) l).map (·.id)).Nodup := by
      have : ((sortByKey (·.id) l).map (·.id)).Perm
          ((mkSegments size S).map (·.id)) :=
        ((sortByKey_perm _ l).trans hp).map _
      rw [List.Perm.nodup_iff this, mkSegments_map_id]
      exact List.nodup_range _
    have hne : (sortByKey (·.id) l).Pairwise (fun a b => a.id ≠ b.id) :=
      List.pairwise_map.mp hnodup
    have := hsorted.and hne
    exact this.imp (fun h => lt_of_le_of_ne h.1 h.2)
  · exact mkSegments_id_strictSorted size S

/-- When every segment's scratch file is present, the concatenation loop
returns the ordered concatenation of the per-id contents. -/
theorem combineGo_all_some (store : Nat → Option Bytes) (content : Nat → Bytes) :
    ∀ l : List VideoSegment, (∀ s ∈ l, store s.id = some (content s.id)) →
    combineGo store l = .ok (l.map (fun s => content s.id)).flatten := by
  intro l
  induction l with
  | nil => intro _; simp [combineGo]
  | cons s rest ih =>
    intro h
    have hs := h s (by simp)
    have hrest := ih (fun t ht => h t (by simp [ht]))
    simp [combineGo, hs, hrest]

/-! ### Merge-loop lemmas (`download_playlist`) -/

theorem fsLookup_write_ne (fs : Fs) (q p : Str) (b : Bytes) (h : q ≠ p) :
    fsLookup (fsWrite fs q b) p = fsLookup fs p := by
  simp [fsWrite, fsLookup, h]

theorem fsLookup_write_self (fs : Fs) (q : Str) (b : Bytes) :
    fsLookup (fsWrite fs q b) q = some b := by
  simp [fsWrite, fsLookup]

/-- The merge loop, when every slot file is present and none of the slot
paths collides with the output path, succeeds and leaves the output file
holding the previously written prefix followed by the slot contents in
list order. -/
theorem mergeGo_ok (output folder_name : Str) (content : Segment → Bytes) :
    ∀ (segs : List Segment) (fs : Fs) (acc : Bytes),
    (∀ s ∈ segs, folder_name ++ ofStr "/" ++ s.name ≠ output) →
    (∀ s ∈ segs, fsLookup fs (folder_name ++ ofStr "/" ++ s.name) = some (content s)) →
    fsLookup fs output = some acc →
    (mergeGo output folder_name fs acc segs).1 = .ok () ∧
    fsLookup (mergeGo output folder_name fs acc segs).2 output =
      some (acc ++ (segs.map content).flatten) := by
  intro segs
  induction segs with
  | nil =>
    intro fs acc _ _ hout
    simpa [mergeGo] using hout
  | cons s rest ih =>
    intro fs acc hne hin hout
    have hs := hin s (by simp)
    have hne_s := hne s (by simp)
    simp only [mergeGo, hs]
    have hstep := ih (fsWrite fs output (acc ++ content s)) (acc ++ content s)
      (fun t ht => hne t (by simp [ht]))
      (fun t ht => by
        rw [fsLookup_write_ne _ _ _ _ (hne t (by simp [ht])).symm]
        exact hin t (by simp [ht]))
      (fsLookup_write_self fs output (acc ++ content s))
    rcases hstep with ⟨h1, h2⟩
    refine ⟨h1, ?_⟩
    rw [h2]
    simp

/-- The merge loop never touches a path other than the output file
(in particular it removes nothing), on success and on failure alike. -/
theorem mergeGo_preserves (output folder_name : Str) :
    ∀ (segs : List Segment) (fs : Fs) (acc : Bytes) (p : Str), p ≠ output →
    fsLookup (mergeGo output folder_name fs acc segs).2 p = fsLookup fs p := by
  intro segs
  induction segs with
  | nil => intro fs acc p _; simp [mergeGo]
  | cons s rest ih =>
    intro fs acc p hp
    simp only [mergeGo]
    cases h : fsLookup fs (folder_name ++ ofStr "/" ++ s.name) with
    | none => simp
    | some b =>
      simp only
      rw [ih _ _ _ hp, fsLookup_write_ne _ _ _ _ hp.symm]

/-! ### Progress-counter lemmas -/


theorem intRangeFrom_succ (c : Int) (m : Nat) :
    intRangeFrom c (m + 1) = (c + 1) :: intRangeFrom (c + 1) m := by
  simp only [intRangeFrom, List.range_succ_eq_map, List.map_cons, List.map_map,
    List.cons.injEq]
  refine ⟨by simp, ?_⟩
  apply List.map_congr_left
  intro i _
  simp only [Function.comp_apply, Nat.succ_eq_add_one]
  push_cast
  ring

theorem intRangeFrom_append (c : Int) (a b : Nat) :
    intRangeFrom c (a + b) = intRangeFrom c a ++ intRangeFrom (c + a) b := by
  simp only [intRangeFrom, List.range_add, List.map_append, List.map_map]
  congr 1
  apply List.map_congr_left
  intro i _
  simp only [Function.comp_apply]
  push_cast
  ring

/-- Every value in the run is bounded by `c + m`. -/
theorem intRangeFrom_le (c : Int) (m : Nat) :
    ∀ v ∈ intRangeFrom c m, v ≤ c + m := by
  intro v hv
  rcases List.mem_map.mp hv with ⟨i, hi, rfl⟩
  have := List.mem_range.mp hi
  omega

/-- The run is strictly increasing, hence in particular non-decreasing. -/
theorem intRangeFrom_chain (c : Int) (m : Nat) :
    (intRangeFrom c m).Pairwise (· ≤ ·) := by
  have h2 : (List.range m).Pairwise
      (fun (i j : Nat) => c + 1 + (i : Int) ≤ c + 1 + (j : Int)) := by
    apply (List.pairwise_lt_range m).imp
    intro hij
    omega
  exact List.pairwise_map.mpr h2

/-- Folding one wave over its segments: the counter rises by the number `m`
of segments counted in the wave, the emitted counts extend the previous
observations by the consecutive run starting after the previous counter
value, and the number of counted plus requeued segments is bounded by the
wave size (no segment is counted or requeued twice). -/
theorem waveFold_spec (folder : Str) (fetchW : Str → Option Bytes) (total : Int) :
    ∀ (segs : List Segment) (st : WaveState),
    ∃ m : Nat,
      (segs.foldl (waveStep folder fetchW total) st).counters.downloaded_segments
        = st.counters.downloaded_segments + m ∧
      ((segs.foldl (waveStep folder fetchW total) st).obs).map (·.count)
        = st.obs.map (·.count) ++ intRangeFrom st.counters.downloaded_segments m ∧
      (segs.foldl (waveStep folder fetchW total) st).retry.length + m
        ≤ st.retry.length + segs.length := by
  intro segs
  induction segs with
  | nil =>
    intro st
    exact ⟨0, by simp [intRangeFrom], by simp [intRangeFrom], by simp⟩
  | cons seg rest ih =>
    intro st
    simp only [List.foldl_cons]
    by_cases hok : (seg.download folder st.fs fetchW).isOk
    · by_cases hdl : (seg.download folder st.fs fetchW).seg.downloaded
      · -- counted: the step increments the counter and emits one observation
        have hst : waveStep folder fetchW total st seg =
            { fs := (seg.download folder st.fs fetchW).fs,
              counters := ⟨st.counters.downloaded_segments + 1,
                st.counters.downloaded_duration +
                  (seg.download folder st.fs fetchW).seg.duration⟩,
              obs := st.obs ++ [⟨st.counters.downloaded_segments + 1, total,
                (seg.download folder st.fs fetchW).seg.name⟩],
              retry := st.retry } := by
          simp [waveStep, hok, hdl]
        obtain ⟨m, h1, h2, h3⟩ := ih (waveStep folder fetchW total st seg)
        rw [hst] at h1 h2 h3
        rw [hst]
        refine ⟨m + 1, ?_, ?_, ?_⟩
        · rw [h1]; push_cast; ring
        · rw [h2]
          simp only [List.map_append, List.map_cons, List.map_nil,
            intRangeFrom_succ, List.append_assoc, List.singleton_append]
        · simp only [List.length_cons] at h3 ⊢
          omega
      · -- requeued: counters and observations unchanged
        have hst : waveStep folder fetchW total st seg =
            { fs := (seg.download folder st.fs fetchW).fs,
              counters := st.counters, obs := st.obs,
              retry := st.retry ++ [(seg.download folder st.fs fetchW).seg] } := by
          simp [waveStep, hok, hdl]
        obtain ⟨m, h1, h2, h3⟩ := ih (waveStep folder fetchW total st seg)
        rw [hst] at h1 h2 h3
        rw [hst]
        refine ⟨m, h1, h2, ?_⟩
        simp only [List.length_append, List.length_cons, List.length_nil] at h3 ⊢
        omega
    · -- dropped after an `Err`: counters, observations and retry unchanged
      have hst : waveStep folder fetchW total st seg =
          { fs := (seg.download folder st.fs fetchW).fs,
            counters := st.counters, obs := st.obs, retry := st.retry } := by
        simp [waveStep, hok]
      obtain ⟨m, h1, h2, h3⟩ := ih (waveStep folder fetchW total st seg)
      rw [hst] at h1 h2 h3
      rw [hst]
      refine ⟨m, h1, h2, ?_⟩
      simp only [List.length_cons] at h3 ⊢
      omega

/-- The wave loop emits exactly one consecutive run of counter values,
`c+1, …, c+m`, with `m` bounded by the number of segments submitted to the
first wave. -/
theorem wavesLoop_spec (folder : Str) (fetch : Nat → Str → Option Bytes)
    (total : Int) :
    ∀ (remaining tries : Nat) (fs : Fs) (counters : Counters)
      (segs : List Segment),
    ∃ m : Nat, m ≤ segs.length ∧
      (wavesLoop folder fetch total tries remaining fs counters segs).2.2.map (·.count)
        = intRangeFrom counters.downloaded_segments m := by
  intro remaining
  induction remaining with
  | zero =>
    intro tries fs counters segs
    exact ⟨0, by simp, by simp [wavesLoop, intRangeFrom]⟩
  | succ remaining ih =>
    intro tries fs counters segs
    by_cases hempty : segs.isEmpty
    · refine ⟨0, by simp, ?_⟩
      simp [wavesLoop, hempty, intRangeFrom]
    · have hw := waveFold_spec folder (fetch tries) total segs ⟨fs, counters, [], []⟩
      rcases hw with ⟨m₁, hc, hobs, hlen⟩
      simp only [List.map_nil, List.nil_append, List.length_nil, Nat.zero_add] at hc hobs hlen
      rcases ih (tries + 1)
        (segs.foldl (waveStep folder (fetch tries) total) ⟨fs, counters, [], []⟩).fs
        (segs.foldl (waveStep folder (fetch tries) total) ⟨fs, counters, [], []⟩).counters
        (segs.foldl (waveStep folder (fetch tries) total) ⟨fs, counters, [], []⟩).retry
        with ⟨m₂, hm₂, hobs₂⟩
      refine ⟨m₁ + m₂, by omega, ?_⟩
      have hunfold : wavesLoop folder fetch total tries (remaining + 1) fs counters segs
          = (let w := runWave folder (fetch tries) total fs counters segs
             let r := wavesLoop folder fetch total (tries + 1) remaining w.fs w.counters w.retry
             (r.1, r.2.1, w.obs ++ r.2.2)) := by
        simp only [wavesLoop, hempty, if_false]
        simp
      rw [hunfold]
      simp only [runWave, List.map_append]
      rw [hobs, hobs₂, hc]
      rw [intRangeFrom_append]


/-- The range scheduler also emits one consecutive run of counter values. -/
theorem rangeLoop_counts (fetchRange : Nat × Nat → Option Bytes) (total : Int) :
    ∀ (segs : List VideoSegment) (store : Nat → Option Bytes) (count : Int),
    ∃ m : Nat, m ≤ segs.length ∧
      (rangeLoop fetchRange total store count segs).2.2.1.map (·.count)
        = intRangeFrom count m := by
  intro segs
  induction segs with
  | nil =>
    intro store count
    exact ⟨0, by simp, by simp [rangeLoop, intRangeFrom]⟩
  | cons seg rest ih =>
    intro store count
    by_cases hok : (seg.download store fetchRange).2.2
    · rcases ih (seg.download store fetchRange).1 (count + 1) with ⟨m, hm, hobs⟩
      refine ⟨m + 1, by simp; omega, ?_⟩
      simp only [rangeLoop, hok, if_true, List.map_cons]
      rw [hobs, intRangeFrom_succ]
    · refine ⟨0, by simp, ?_⟩
      simp [rangeLoop, hok, intRangeFrom]

/-! ### Concurrency-permit invariant -/

theorem countP_set_le (p : α → Bool) :
    ∀ (l : List α) (i : Nat) (x : α), p x = false →
    (l.set i x).countP p ≤ l.countP p := by
  intro l
  induction l with
  | nil => intro i x _; simp
  | cons y ys ih =>
    intro i x hx
    cases i with
    | zero =>
      simp only [List.set_cons_zero, List.countP_cons, hx]
      have := List.countP_cons_of_pos p (l := ys) (a := y)
      by_cases hy : p y <;> simp [hy]
    | succ i =>
      simp only [List.set_cons_succ, List.countP_cons]
      have := ih i x hx
      omega

theorem countP_set_succ_le (p : α → Bool) :
    ∀ (l : List α) (i : Nat) (x y : α), l.get? i = some y → p y = false →
    (l.set i x).countP p ≤ l.countP p + 1 := by
  intro l
  induction l with
  | nil => intro i x y h _; simp at h
  | cons z zs ih =>
    intro i x y h hy
    cases i with
    | zero =>
      simp only [List.get?_cons_zero, Option.some.injEq] at h
      subst h
      simp only [List.set_cons_zero, List.countP_cons, hy]
      by_cases hx : p x <;> simp [hx]
    | succ i =>
      simp only [List.get?_cons_succ] at h
      simp only [List.set_cons_succ, List.countP_cons]
      have := ih i x y h hy
      omega

/-- Invariant of the permit system: if at most `c` fetches are in flight
initially, then at most `c` fetches are in flight in every reachable state —
the semaphore guard admits a new fetch only below `c`, and every transfer
gives its permit back exactly once, before its bookkeeping. -/
theorem schedReach_inFlight_le (c : Nat) (s₀ s : SchedState)
    (h : SchedReach c s₀ s) (h₀ : inFlight s₀ ≤ c) : inFlight s ≤ c := by
  induction h with
  | refl => exact h₀
  | tail hr step ih =>
    cases step with
    | acquire i hi hc =>
      rename_i t
      have := countP_set_succ_le (fun x => decide (x = TaskPhase.fetching))
        t.tasks i TaskPhase.fetching TaskPhase.pending hi (by decide)
      simp only [inFlight] at *
      omega
    | release i hi =>
      rename_i t
      have := countP_set_le (fun x => decide (x = TaskPhase.fetching))
        t.tasks i TaskPhase.bookkeeping (by decide)
      simp only [inFlight] at *
      omega
    | finish i hi =>
      rename_i t
      have := countP_set_le (fun x => decide (x = TaskPhase.fetching))
        t.tasks i TaskPhase.done (by decide)
      simp only [inFlight] at *
      omega

/-! ### Selection and parser lemmas -/

/-- The fold inside `maxByKeyLast` returns an element of `b :: xs` whose key
is maximal, and every element after it has a strictly smaller key (so it is
the last of the maxima, as `Iterator::max_by` documents). -/
theorem foldl_maxByKey_spec (key : α → Int) :
    ∀ (xs : List α) (b : α),
    let r := xs.foldl (fun best y => if key best ≤ key y then y else best) b
    (∀ y ∈ b :: xs, key y ≤ key r) ∧
    ∃ l₁ l₂, b :: xs = l₁ ++ r :: l₂ ∧ ∀ y ∈ l₂, key y < key r := by
  intro xs
  induction xs with
  | nil =>
    intro b
    exact ⟨by intro y hy; simp at hy; simp [hy], [], [], rfl, by simp⟩
  | cons y ys ih =>
    intro b
    by_cases hby : key b ≤ key y
    · rcases ih y with ⟨hmax, l₁, l₂, hsplit, hlast⟩
      simp only [List.foldl_cons, hby, if_true]
      refine ⟨?_, b :: l₁, l₂, by rw [List.cons_append, ← hsplit], hlast⟩
      intro z hz
      rcases List.mem_cons.mp hz with hz | hz
      · rw [hz]
        exact le_trans hby (hmax y (by simp))
      · exact hmax z hz
    · rcases ih b with ⟨hmax, l₁, l₂, hsplit, hlast⟩
      simp only [List.foldl_cons, hby, if_false]
      set r := ys.foldl (fun best y => if key best ≤ key y then y else best) b with hr
      refine ⟨?_, ?_⟩
      · intro z hz
        rcases List.mem_cons.mp hz with hz | hz
        · rw [hz]
          exact hmax b (by simp)
        rcases List.mem_cons.mp hz with hz | hz
        · rw [hz]
          have hbr : key b ≤ key r := hmax b (by simp)
          omega
        · exact hmax z (by simp [hz])
      · cases l₁ with
        | nil =>
          -- the fold result is `b` itself: everything after it is smaller
          simp only [List.nil_append, List.cons.injEq] at hsplit
          rcases hsplit with ⟨hb, hys⟩
          refine ⟨[], y :: l₂, ?_, ?_⟩
          · simp [← hb, ← hys]
          · intro z hz
            rcases List.mem_cons.mp hz with hz | hz
            · rw [hz, ← hb]
              omega
            · exact hlast z hz
        | cons w l₁' =>
          simp only [List.cons_append, List.cons.injEq] at hsplit
          rcases hsplit with ⟨hw, hys⟩
          refine ⟨b :: y :: l₁', l₂, ?_, hlast⟩
          simp [hys]

/-- `maxByKeyLast` returns a maximal element, the last one among the maxima. -/
theorem maxByKeyLast_spec (key : α → Int) (l : List α) (x : α)
    (h : maxByKeyLast key l = some x) :
    x ∈ l ∧ (∀ y ∈ l, key y ≤ key x) ∧
    ∃ l₁ l₂, l = l₁ ++ x :: l₂ ∧ ∀ y ∈ l₂, key y < key x := by
  cases l with
  | nil => simp [maxByKeyLast] at h
  | cons b xs =>
    simp only [maxByKeyLast, Option.some.injEq] at h
    rcases foldl_maxByKey_spec key xs b with ⟨hmax, l₁, l₂, hsplit, hlast⟩
    rw [h] at hmax hsplit hlast
    refine ⟨?_, hmax, l₁, l₂, hsplit, hlast⟩
    rw [hsplit]
    simp

/-- A document in which no line starts with the variant marker produces an
empty variant list. -/
theorem masterGo_no_marker (lines : List Str) (pre : Str) :
    ∀ (rest : List Str) (i : Nat) (acc : List Stream),
    (∀ l ∈ rest, strStartsWith l (ofStr "#EXT-X-STREAM-INF") = false) →
    masterGo lines pre i rest acc = .ok acc := by
  intro rest
  induction rest with
  | nil => intro i acc _; simp [masterGo]
  | cons l ls ih =>
    intro i acc h
    have hl := h l (by simp)
    simp only [masterGo, hl, Bool.false_eq_true, if_false]
    exact ih (i + 1) acc (fun t ht => h t (by simp [ht]))

/-- A document in which no line starts with `#EXTINF` produces no segments. -/
theorem segmentsGo_no_marker (lines : List Str) (pre : Str) :
    ∀ (rest : List Str) (i : Nat) (acc : List Segment),
    (∀ l ∈ rest, strStartsWith l (ofStr "#EXTINF") = false) →
    segmentsGo lines pre i rest acc = .ok acc := by
  intro rest
  induction rest with
  | nil => intro i acc _; simp [segmentsGo]
  | cons l ls ih =>
    intro i acc h
    have hl := h l (by simp)
    simp only [segmentsGo, hl, Bool.false_eq_true, if_false]
    exact ih (i + 1) acc (fun t ht => h t (by simp [ht]))


/-! ### Claim C4 -/

/-- C4 (counterexample): variant selection does **not** return the variant
with the maximum document bandwidth, and ties go to the last occurrence.
On `docA` (bandwidths 19 and 85) the code parses the truncated values 9 and
5 and picks the 19-variant `u1`, while the spec's selection (full parse,
max, first on ties) picks the 85-variant `u2`; on `docTie` (77 = 77) the
code picks the second variant, the spec's policy the first. -/
theorem C4_counterexample :
    parse_playlist_master docA preA = .ok ⟨ofStr "http://a/u1", 9⟩ ∧
    spec_selectVariant docA preA = .ok ⟨ofStr "http://a/u2", 85⟩ ∧
    parse_playlist_master docTie preA = .ok ⟨ofStr "http://a/u2", 7⟩ ∧
    spec_selectVariant docTie preA = .ok ⟨ofStr "http://a/u1", 77⟩ := by
  refine ⟨by decide, by decide, by decide, by decide⟩

/-- C4 (amended): whenever `parse_playlist_master` returns a variant, that
variant carries the maximal **truncated** bandwidth — the numeral after
`BANDWIDTH=` with its first character dropped — among the parsed variants,
and is the **last** variant attaining that maximum in document order. -/
theorem C4_amended_selection (playlist pre : Str) (streams : List Stream)
    (st : Stream)
    (hgo : masterGo (rustLines playlist) pre 0 (rustLines playlist) [] = .ok streams)
    (hsel : parse_playlist_master playlist pre = .ok st) :
    st ∈ streams ∧ (∀ t ∈ streams, t.bandwidth ≤ st.bandwidth) ∧
    ∃ l₁ l₂, streams = l₁ ++ st :: l₂ ∧ ∀ t ∈ l₂, t.bandwidth < st.bandwidth := by
  unfold parse_playlist_master at hsel
  rw [hgo] at hsel
  dsimp only at hsel
  cases hmx : maxByKeyLast (fun s => s.bandwidth) streams with
  | none =>
    rw [hmx] at hsel
    cases hsel
  | some x =>
    rw [hmx] at hsel
    dsimp only at hsel
    cases hsel
    exact maxByKeyLast_spec _ _ _ hmx

/-- C4 (amended, witness): on `docA` the parsed variants are
`[(u1, 9), (u2, 5)]` and the selected one is `(u1, 9)`. -/
theorem C4_amended_selection_witness :
    (⟨ofStr "http://a/u1", 9⟩ : Stream) ∈
      [(⟨ofStr "http://a/u1", 9⟩ : Stream), ⟨ofStr "http://a/u2", 5⟩] ∧
    (∀ t ∈ [(⟨ofStr "http://a/u1", 9⟩ : Stream), ⟨ofStr "http://a/u2", 5⟩],
      t.bandwidth ≤ (9 : Int)) ∧
    ∃ l₁ l₂, [(⟨ofStr "http://a/u1", 9⟩ : Stream), ⟨ofStr "http://a/u2", 5⟩]
        = l₁ ++ (⟨ofStr "http://a/u1", 9⟩ : Stream) :: l₂ ∧
      ∀ t ∈ l₂, t.bandwidth < (9 : Int) :=
  C4_amended_selection docA preA
    [⟨ofStr "http://a/u1", 9⟩, ⟨ofStr "http://a/u2", 5⟩]
    ⟨ofStr "http://a/u1", 9⟩ (by decide) (by decide)

/-! ### Claim C6 -/

/-- C6 (counterexample): on each malformed manifest category the parser
**panics** (`Outcome.crash`, an `unwrap` failure) instead of returning an
error result to the caller: malformed bandwidth, variant marker without a
following URI, segment line without a duration, segment marker without a
following URI.  `crash` is a different outcome from any returned value. -/
theorem C6_counterexample :
    parse_playlist_master docBadBw preA = .crash ∧
    parse_playlist_master docNoUriMaster preA = .crash ∧
    parse_playlist_segments docNoDur preA = .crash ∧
    parse_playlist_segments docNoUriSeg preA = .crash ∧
    (Outcome.crash : Outcome Stream) ≠ .fail ∧
    ∀ s : Stream, (Outcome.crash : Outcome Stream) ≠ .ok s := by
  refine ⟨by decide, by decide, by decide, by decide, by decide, ?_⟩
  intro s h
  cases h

/-- C6 (amended): on a malformed manifest the parser panics rather than
returning a `ParseError`-style value: an empty variant set (no line starts
with the variant marker) makes `parse_playlist_master` crash on the final
`unwrap`, and each of the four concrete malformed categories crashes. -/
theorem C6_amended_panics (playlist pre : Str)
    (hnov : ∀ l ∈ rustLines playlist,
      strStartsWith l (ofStr "#EXT-X-STREAM-INF") = false) :
    parse_playlist_master playlist pre = .crash ∧
    parse_playlist_master docBadBw preA = .crash ∧
    parse_playlist_master docNoUriMaster preA = .crash ∧
    parse_playlist_segments docNoDur preA = .crash ∧
    parse_playlist_segments docNoUriSeg preA = .crash := by
  refine ⟨?_, by decide, by decide, by decide, by decide⟩
  unfold parse_playlist_master
  rw [masterGo_no_marker _ _ _ _ _ hnov]
  simp [maxByKeyLast]

/-- C6 (amended, witness): a plain one-line document has no variant marker
and makes the master parser crash. -/
theorem C6_amended_panics_witness :
    parse_playlist_master (ofStr "x") preA = .crash ∧
    parse_playlist_master docBadBw preA = .crash ∧
    parse_playlist_master docNoUriMaster preA = .crash ∧
    parse_playlist_segments docNoDur preA = .crash ∧
    parse_playlist_segments docNoUriSeg preA = .crash :=
  C6_amended_panics (ofStr "x") preA (by decide)

/-! ### Claim C8 -/

/-- The wave loop on an empty task list does nothing, for every retry
ceiling. -/
theorem wavesLoop_nil (folder : Str) (fetch : Nat → Str → Option Bytes)
    (total : Int) (tries remaining : Nat) (fs : Fs) (c : Counters) :
    wavesLoop folder fetch total tries remaining fs c [] = (fs, c, []) := by
  cases remaining <;> simp [wavesLoop]

/-- C8 (counterexample): there is no emptiness check.  An empty media
manifest parses to `Ok` with zero segments, the job then runs to an `Ok`
result (producing an empty output), and a zero-length ranged file produces
a one-task plan `[(0, 0, 0)]` rather than an error. -/
theorem C8_counterexample :
    parse_playlist_segments (ofStr "") preA = .ok ⟨0, []⟩ ∧
    (download_playlist ⟨0, []⟩ (ofStr "out") ⟨4, 3, 0⟩ (fun _ _ => none)
      ⟨[], []⟩).1 = .ok () ∧
    mkSegments 0 4 = [⟨0, 0, 0⟩] := by
  refine ⟨by decide, by decide, by decide⟩

/-- C8 (amended): planning performs no emptiness validation.  A manifest
with no `#EXTINF` line yields `Ok` with an empty plan; running the job on an
empty plan downloads nothing and still returns `Ok ()` (an apparent success
with an empty output file); `SegmentedVideo::new` on a zero-length video
yields the single degenerate task `(id 0, range 0-0)`. -/
theorem C8_amended_no_empty_check (playlist pre : Str)
    (hseg : ∀ l ∈ rustLines playlist,
      strStartsWith l (ofStr "#EXTINF") = false) :
    parse_playlist_segments playlist pre = .ok ⟨0, []⟩ ∧
    (∀ (output : Str) (options : Options) (fetch : Nat → Str → Option Bytes)
      (st : FsState) (d : ℚ),
      (download_playlist ⟨d, []⟩ output options fetch st).1 = .ok ()) ∧
    (∀ S : Nat, mkSegments 0 S = [⟨0, 0, 0⟩]) := by
  refine ⟨?_, ?_, ?_⟩
  · unfold parse_playlist_segments
    rw [segmentsGo_no_marker _ _ _ _ _ hseg]
    simp
  · intro output options fetch st d
    unfold download_playlist download_segments
    dsimp only
    rw [wavesLoop_nil]
    simp [mergeGo]
  · intro S
    rw [mkSegments_eq]
    simp

/-- C8 (amended, witness): the empty document has no `#EXTINF` line. -/
theorem C8_amended_no_empty_check_witness :
    parse_playlist_segments (ofStr "") preA = .ok ⟨0, []⟩ ∧
    (∀ (output : Str) (options : Options) (fetch : Nat → Str → Option Bytes)
      (st : FsState) (d : ℚ),
      (download_playlist ⟨d, []⟩ output options fetch st).1 = .ok ()) ∧
    (∀ S : Nat, mkSegments 0 S = [⟨0, 0, 0⟩]) :=
  C8_amended_no_empty_check (ofStr "") preA (by decide)

/-! ### Claim C2 -/

/-- Index-wise description of the plan. -/
theorem mkSegments_get? (L S k : Nat) :
    (mkSegments L S).get? k =
      if k < L / (S + 1) then some ⟨k, k * (S + 1), k * (S + 1) + S⟩
      else if k = L / (S + 1) then
        some ⟨L / (S + 1), (L / (S + 1)) * (S + 1), L⟩
      else none := by
  rw [mkSegments_eq]
  by_cases h : k < L / (S + 1)
  · rw [List.get?_append (by simpa using h)]
    simp only [h, if_true]
    rw [List.get?_map, List.get?_range h]
    rfl
  · rw [List.get?_append_right (by simpa using h)]
    simp only [h, if_false, List.length_map, List.length_range]
    by_cases he : k = L / (S + 1)
    · simp [he]
    · have : 1 ≤ k - L / (S + 1) := by omega
      simp only [he, if_false]
      cases hk : k - L / (S + 1) with
      | zero => omega
      | succ n => simp

/-- C2 (counterexample): for `L = 21`, `S = 10` the planner produces 2 tasks
with inclusive ranges `0-10` and `11-21`, not `ceil(21/10) = 3` tasks, and
the second task's range reaches byte 21, which lies outside `[0, 21)`. -/
theorem C2_counterexample :
    mkSegments 21 10 = [⟨0, 0, 10⟩, ⟨1, 11, 21⟩] ∧
    (mkSegments 21 10).length ≠ (21 + 10 - 1) / 10 ∧
    ∃ s ∈ mkSegments 21 10, ¬ s.«end» < 21 := by
  refine ⟨by decide, by decide, ⟨⟨1, 11, 21⟩, by decide, by decide⟩⟩

/-- C2 (amended): the planner cuts `[0, L]` into `L / (S+1) + 1` tasks with
**inclusive** byte ranges: task `k < L/(S+1)` is `(k, [k(S+1), k(S+1)+S])`
(an inclusive span of `S+1` bytes, `size() = end - start = S`), the final
task is `(L/(S+1), [(L/(S+1))(S+1), L])`; ids are dense `0..L/(S+1)`,
consecutive ranges are contiguous (`start = previous end + 1`), ranges are
pairwise disjoint, the first range starts at 0 and the last ends at `L`
(one past the final byte index of `[0, L)`). -/
theorem C2_amended_plan (L S : Nat) :
    (mkSegments L S).length = L / (S + 1) + 1 ∧
    (mkSegments L S).map (·.id) = List.range (L / (S + 1) + 1) ∧
    (∀ k, k < L / (S + 1) →
      (mkSegments L S).get? k = some ⟨k, k * (S + 1), k * (S + 1) + S⟩) ∧
    (mkSegments L S).get? (L / (S + 1)) =
      some ⟨L / (S + 1), (L / (S + 1)) * (S + 1), L⟩ ∧
    (∀ k s t, (mkSegments L S).get? k = some s →
      (mkSegments L S).get? (k + 1) = some t → t.start = s.«end» + 1) ∧
    (∀ i j s t, i < j → (mkSegments L S).get? i = some s →
      (mkSegments L S).get? j = some t → s.«end» < t.start) ∧
    (∀ k, k < L / (S + 1) → ∀ s, (mkSegments L S).get? k = some s →
      s.size = S) := by
  have hdivle : (L / (S + 1)) * (S + 1) ≤ L := Nat.div_mul_le_self L (S + 1)
  refine ⟨mkSegments_length L S, mkSegments_map_id L S, ?_, ?_, ?_, ?_, ?_⟩
  · intro k hk
    rw [mkSegments_get?]
    simp [hk]
  · rw [mkSegments_get?]
    simp
  · intro k s t hs ht
    rw [mkSegments_get?] at hs ht
    by_cases hk : k < L / (S + 1)
    · rw [if_pos hk] at hs
      cases hs
      by_cases hk1 : k + 1 < L / (S + 1)
      · rw [if_pos hk1] at ht
        cases ht
        simp only
        ring
      · have hk1e : k + 1 = L / (S + 1) := by omega
        rw [if_neg hk1, if_pos hk1e] at ht
        cases ht
        simp only [← hk1e]
        ring
    · by_cases hke : k = L / (S + 1)
      · have h1 : ¬ (k + 1 < L / (S + 1)) := by omega
        have h2 : ¬ (k + 1 = L / (S + 1)) := by omega
        rw [if_neg h1, if_neg h2] at ht
        cases ht
      · rw [if_neg hk, if_neg hke] at hs
        cases hs
  · intro i j s t hij hs ht
    rw [mkSegments_get?] at hs ht
    have hjb : j ≤ L / (S + 1) := by
      by_contra hc
      have h1 : ¬ (j < L / (S + 1)) := by omega
      have h2 : ¬ (j = L / (S + 1)) := by omega
      rw [if_neg h1, if_neg h2] at ht
      cases ht
    have hi : i < L / (S + 1) := by omega
    rw [if_pos hi] at hs
    cases hs
    have hmul : (i + 1) * (S + 1) ≤ j * (S + 1) :=
      Nat.mul_le_mul_right _ (by omega)
    have hmul2 : (i + 1) * (S + 1) = i * (S + 1) + (S + 1) := by ring
    by_cases hj : j < L / (S + 1)
    · rw [if_pos hj] at ht
      cases ht
      simp only
      omega
    · have hje : j = L / (S + 1) := by omega
      rw [if_neg hj, if_pos hje] at ht
      cases ht
      have hmul3 : j * (S + 1) = (L / (S + 1)) * (S + 1) := by rw [hje]
      simp only
      -- s.end = i(S+1)+S < (i+1)(S+1) ≤ j(S+1) = (L/(S+1))(S+1) = final start
      omega
  · intro k hk s hs
    rw [mkSegments_get?] at hs
    simp only [hk, if_true, Option.some.injEq] at hs
    rw [← hs]
    simp [VideoSegment.size]

/-- C2 (amended, witness): the plan for `L = 21`, `S = 10` concretely. -/
theorem C2_amended_plan_witness :
    (mkSegments 21 10).length = 21 / 11 + 1 ∧
    (mkSegments 21 10).get? (21 / 11) = some ⟨21 / 11, (21 / 11) * 11, 21⟩ :=
  ⟨(C2_amended_plan 21 10).1, (C2_amended_plan 21 10).2.2.2.1⟩

/-! ### Claim C1 -/

/-- C1: reassembly is order-faithful.  Range mode: whatever order the
completed segments were collected in (any permutation `l` of the plan),
`combine` emits the per-id scratch contents concatenated in ascending id
order.  Playlist mode: the merge loop of `download_playlist` concatenates
the per-name slot files exactly in manifest (task) order into the output
file, independent of the order the fetch phase wrote them. -/
theorem C1_reassembly_in_id_order
    (L S : Nat) (store : Nat → Option Bytes) (content : Nat → Bytes)
    (l : List VideoSegment) (hperm : l.Perm (mkSegments L S))
    (hstore : ∀ s ∈ mkSegments L S, store s.id = some (content s.id))
    (playlist : Playlist) (output folder_name : Str) (fs : Fs)
    (fscontent : Segment → Bytes)
    (hne : ∀ s ∈ playlist.segments, folder_name ++ ofStr "/" ++ s.name ≠ output)
    (hfs : ∀ s ∈ playlist.segments,
      fsLookup fs (folder_name ++ ofStr "/" ++ s.name) = some (fscontent s)) :
    combine l (mkSegments L S).length store
      = .ok (((mkSegments L S).map (fun s => content s.id)).flatten) ∧
    (mergeGo output folder_name (fsWrite fs output []) [] playlist.segments).1
      = .ok () ∧
    fsLookup (mergeGo output folder_name (fsWrite fs output [])
        [] playlist.segments).2 output
      = some ((playlist.segments.map fscontent).flatten) := by
  refine ⟨?_, ?_, ?_⟩
  · unfold combine
    have hlen : l.length = (mkSegments L S).length := hperm.length_eq
    rw [if_neg (by omega)]
    rw [sortByKey_perm_plan L S l hperm]
    exact combineGo_all_some store content _ hstore
  · exact (mergeGo_ok output folder_name fscontent playlist.segments
      (fsWrite fs output []) [] hne
      (fun s hs => by
        rw [fsLookup_write_ne _ _ _ _ (hne s hs).symm]
        exact hfs s hs)
      (fsLookup_write_self fs output [])).1
  · have h2 := (mergeGo_ok output folder_name fscontent playlist.segments
      (fsWrite fs output []) [] hne
      (fun s hs => by
        rw [fsLookup_write_ne _ _ _ _ (hne s hs).symm]
        exact hfs s hs)
      (fsLookup_write_self fs output [])).2
    simpa using h2


/-- C1 (witness): a two-task plan collected in reverse completion order and
a two-segment playlist with its slots on disk. -/
theorem C1_reassembly_in_id_order_witness :
    combine [⟨1, 11, 21⟩, ⟨0, 0, 10⟩] (mkSegments 21 10).length
        (fun id => some [id])
      = .ok (((mkSegments 21 10).map
          (fun s => (fun (id : Nat) => [id]) s.id)).flatten) ∧
    (mergeGo (ofStr "out") (ofStr "out_segments")
        (fsWrite [(ofStr "out_segments/a.ts", [1]),
                  (ofStr "out_segments/b.ts", [2])] (ofStr "out") [])
        [] twoSegPlaylist.segments).1 = .ok () ∧
    fsLookup (mergeGo (ofStr "out") (ofStr "out_segments")
        (fsWrite [(ofStr "out_segments/a.ts", [1]),
                  (ofStr "out_segments/b.ts", [2])] (ofStr "out") [])
        [] twoSegPlaylist.segments).2 (ofStr "out")
      = some ((twoSegPlaylist.segments.map
          (fun s => if s.name = ofStr "a.ts" then [1] else [2])).flatten) :=
  C1_reassembly_in_id_order 21 10 (fun id => some [id]) (fun id => [id])
    [⟨1, 11, 21⟩, ⟨0, 0, 10⟩] (by decide) (by decide)
    twoSegPlaylist (ofStr "out") (ofStr "out_segments")
    [(ofStr "out_segments/a.ts", [1]), (ofStr "out_segments/b.ts", [2])]
    (fun s => if s.name = ofStr "a.ts" then [1] else [2])
    (by decide) (by decide)

/-! ### Claim C5 -/

/-- C5: a task whose destination slot already exists is marked done with no
network fetch and participates in the progress accounting exactly like a
freshly downloaded task, in both schedulers. -/
theorem C5_skip_rule
    (folder_name : Str) (fetchW : Str → Option Bytes) (total : Int)
    (fs : Fs) (c : Counters) (obs : List Obs) (rq : List Segment)
    (seg : Segment) (hnew : seg.downloaded = false)
    (hexists : (fsLookup fs (folder_name ++ ofStr "/" ++ seg.name)).isSome) :
    seg.download folder_name fs fetchW
      = ⟨{ seg with downloaded := true }, fs, false, true⟩ ∧
    waveStep folder_name fetchW total ⟨fs, c, obs, rq⟩ seg =
      ⟨fs, ⟨c.downloaded_segments + 1, c.downloaded_duration + seg.duration⟩,
        obs ++ [⟨c.downloaded_segments + 1, total, seg.name⟩], rq⟩ ∧
    (∀ (fs' : Fs) (bytes : Bytes),
      fsLookup fs' (folder_name ++ ofStr "/" ++ seg.name) = none →
      fetchW seg.uri = some bytes →
      (seg.download folder_name fs' fetchW).fetched = true ∧
      (waveStep folder_name fetchW total ⟨fs', c, obs, rq⟩ seg).counters
        = (waveStep folder_name fetchW total ⟨fs, c, obs, rq⟩ seg).counters ∧
      (waveStep folder_name fetchW total ⟨fs', c, obs, rq⟩ seg).obs
        = (waveStep folder_name fetchW total ⟨fs, c, obs, rq⟩ seg).obs) ∧
    (∀ (store : Nat → Option Bytes) (fetchRange : Nat × Nat → Option Bytes)
      (vseg : VideoSegment), (store vseg.id).isSome →
      vseg.download store fetchRange = (store, false, true)) := by
  simp only [List.append_assoc] at hexists
  have hdl : seg.download folder_name fs fetchW
      = ⟨{ seg with downloaded := true }, fs, false, true⟩ := by
    simp [Segment.download, hnew, hexists]
  refine ⟨hdl, ?_, ?_, ?_⟩
  · simp [waveStep, hdl]
  · intro fs' bytes hmiss hfetch
    simp only [List.append_assoc] at hmiss
    have hdl' : seg.download folder_name fs' fetchW
        = ⟨{ seg with downloaded := true },
            fsWrite fs' (folder_name ++ ofStr "/" ++ seg.name) bytes,
            true, true⟩ := by
      simp [Segment.download, hnew, hmiss, hfetch]
    refine ⟨by simp [hdl'], by simp [waveStep, hdl, hdl'], by simp [waveStep, hdl, hdl']⟩
  · intro store fetchRange vseg hv
    simp [VideoSegment.download, hv]

/-- C5 (witness): a segment whose slot file is on disk. -/
theorem C5_skip_rule_witness :
    (Segment.download ⟨ofStr "s1", ofStr "http://a/s1", 1, false⟩
        (ofStr "out_segments") [(ofStr "out_segments/s1", [5])] (fun _ => none))
      = ⟨⟨ofStr "s1", ofStr "http://a/s1", 1, true⟩,
          [(ofStr "out_segments/s1", [5])], false, true⟩ ∧
    waveStep (ofStr "out_segments") (fun _ => none) 1
        ⟨[(ofStr "out_segments/s1", [5])], ⟨0, 0⟩, [], []⟩
        ⟨ofStr "s1", ofStr "http://a/s1", 1, false⟩ =
      ⟨[(ofStr "out_segments/s1", [5])], ⟨0 + 1, 0 + 1⟩,
        [] ++ [⟨0 + 1, 1, ofStr "s1"⟩], []⟩ ∧
    (∀ (fs' : Fs) (bytes : Bytes),
      fsLookup fs' (ofStr "out_segments" ++ ofStr "/" ++ ofStr "s1") = none →
      (fun _ => none : Str → Option Bytes) (ofStr "http://a/s1") = some bytes →
      True) ∧
    VideoSegment.download ⟨0, 0, 10⟩ (fun _ => some [9]) (fun _ => none)
      = (fun _ => some [9], false, true) := by
  have h := C5_skip_rule (ofStr "out_segments") (fun _ => none) 1
    [(ofStr "out_segments/s1", [5])] ⟨0, 0⟩ [] []
    ⟨ofStr "s1", ofStr "http://a/s1", 1, false⟩ rfl (by decide)
  exact ⟨h.1, h.2.1, fun fs' bytes _ _ => trivial,
    h.2.2.2 (fun _ => some [9]) (fun _ => none) ⟨0, 0, 10⟩ (by decide)⟩

/-! ### Claim C7 -/

/-- C7: in every run, the completed-units values carried by the emitted
progress observations form the consecutive run `1, 2, …, m` for some
`m ≤ N` — so they are non-decreasing, never exceed the total `N`, and each
task completion increments the counter exactly once (no task is counted
twice).  This holds for every completion order (`l` ranges over all
permutations of the playlist's segments) and for both schedulers. -/
theorem C7_progress_monotonic
    (playlist : Playlist) (folder_name : Str) (options : Options)
    (fetch : Nat → Str → Option Bytes) (fs : Fs) (l : List Segment)
    (hperm : l.Perm playlist.segments)
    (fetchRange : Nat × Nat → Option Bytes) (store : Nat → Option Bytes)
    (rl : List VideoSegment) :
    (∃ m : Nat, m ≤ playlist.segments.length ∧
      ((wavesLoop folder_name fetch (playlist.segments.length : Int) 0
          options.max_download_retries fs ⟨0, 0⟩ l).2.2.map (·.count))
        = intRangeFrom 0 m ∧
      ((wavesLoop folder_name fetch (playlist.segments.length : Int) 0
          options.max_download_retries fs ⟨0, 0⟩ l).2.2.map (·.count)).Pairwise
        (· ≤ ·) ∧
      (∀ o ∈ (wavesLoop folder_name fetch (playlist.segments.length : Int) 0
          options.max_download_retries fs ⟨0, 0⟩ l).2.2,
        o.count ≤ (playlist.segments.length : Int))) ∧
    download_segments playlist folder_name options fetch fs
      = wavesLoop folder_name fetch (playlist.segments.length : Int) 0
          options.max_download_retries fs ⟨0, 0⟩ playlist.segments ∧
    (∃ m : Nat, m ≤ rl.length ∧
      ((rangeLoop fetchRange (rl.length : Int) store 0 rl).2.2.1.map (·.count))
        = intRangeFrom 0 m ∧
      ((rangeLoop fetchRange (rl.length : Int) store 0 rl).2.2.1.map
        (·.count)).Pairwise (· ≤ ·) ∧
      (∀ o ∈ (rangeLoop fetchRange (rl.length : Int) store 0 rl).2.2.1,
        o.count ≤ (rl.length : Int))) := by
  refine ⟨?_, rfl, ?_⟩
  · rcases wavesLoop_spec folder_name fetch (playlist.segments.length : Int)
      options.max_download_retries 0 fs ⟨0, 0⟩ l with ⟨m, hm, hobs⟩
    have hlen : l.length = playlist.segments.length := hperm.length_eq
    refine ⟨m, by omega, hobs, ?_, ?_⟩
    · rw [hobs]
      exact intRangeFrom_chain 0 m
    · intro o ho
      have : o.count ∈ intRangeFrom (0 : Int) m := by
        rw [← hobs]
        exact List.mem_map.mpr ⟨o, ho, rfl⟩
      have hle := intRangeFrom_le (0 : Int) m o.count this
      omega
  · rcases rangeLoop_counts fetchRange (rl.length : Int) rl store 0
      with ⟨m, hm, hobs⟩
    refine ⟨m, hm, hobs, ?_, ?_⟩
    · rw [hobs]
      exact intRangeFrom_chain 0 m
    · intro o ho
      have : o.count ∈ intRangeFrom (0 : Int) m := by
        rw [← hobs]
        exact List.mem_map.mpr ⟨o, ho, rfl⟩
      have hle := intRangeFrom_le (0 : Int) m o.count this
      omega

/-- C7 (witness): a concrete two-segment run in reversed completion order. -/
theorem C7_progress_monotonic_witness :
    (∃ m : Nat, m ≤ twoSegPlaylist.segments.length ∧
      ((wavesLoop (ofStr "out_segments") (fun _ _ => some [3])
          (twoSegPlaylist.segments.length : Int) 0 3 [] ⟨0, 0⟩
          twoSegPlaylist.segments.reverse).2.2.map (·.count))
        = intRangeFrom 0 m ∧
      ((wavesLoop (ofStr "out_segments") (fun _ _ => some [3])
          (twoSegPlaylist.segments.length : Int) 0 3 [] ⟨0, 0⟩
          twoSegPlaylist.segments.reverse).2.2.map (·.count)).Pairwise
        (· ≤ ·) ∧
      (∀ o ∈ (wavesLoop (ofStr "out_segments") (fun _ _ => some [3])
          (twoSegPlaylist.segments.length : Int) 0 3 [] ⟨0, 0⟩
          twoSegPlaylist.segments.reverse).2.2,
        o.count ≤ (twoSegPlaylist.segments.length : Int))) :=
  (C7_progress_monotonic twoSegPlaylist (ofStr "out_segments") ⟨4, 3, 0⟩
    (fun _ _ => some [3]) [] twoSegPlaylist.segments.reverse
    (List.reverse_perm _) (fun _ => none) (fun _ => none) []).1

/-! ### Claim C3 -/


/-- C3 (evaluation at the failing input): with a fetch stub that fails each
task exactly once and then would succeed, and a retry ceiling of 2 waves,
the scheduler drops the failed segment after wave 0 — the `Err` arm of the
collection loop does not requeue it — so wave 1 has nothing to do and
`download_segments` returns with no file written, no progress emitted and
the counter at 0, reporting no error at all.  The driver then starts
reassembly anyway: it creates the output file and fails on the missing slot,
leaving the partially written (empty) output on disk.  A ceiling of 0
behaves identically.  No `IncompleteDownloadError` value exists anywhere in
this code path. -/
theorem C3_failed_segments_never_retried :
    download_segments c3Playlist (ofStr "out_segments") ⟨4, 2, 0⟩ c3Fetch []
      = ([], ⟨0, 0⟩, []) ∧
    (download_playlist c3Playlist (ofStr "out") ⟨4, 2, 0⟩ c3Fetch
      ⟨[], []⟩).1 = .fail ∧
    fsLookup (download_playlist c3Playlist (ofStr "out") ⟨4, 2, 0⟩ c3Fetch
      ⟨[], []⟩).2.files (ofStr "out") = some [] ∧
    (download_playlist c3Playlist (ofStr "out") ⟨4, 0, 0⟩ c3Fetch
      ⟨[], []⟩).1 = .fail := by
  refine ⟨by decide, by decide, by decide, by decide⟩

/-! ### Claim C9 -/

/-- C9 (amended): the scratch directory and the slot files are left on disk
in **every** case — `download_playlist` contains no removal: after any run,
the scratch directory is present in the final filesystem, and every path
other than the output file holds exactly what the download phase left
there. -/
theorem C9_scratch_never_removed
    (playlist : Playlist) (output : Str) (options : Options)
    (fetch : Nat → Str → Option Bytes) (st : FsState) (p : Str)
    (hp : p ≠ output) :
    (output ++ ofStr "_segments")
      ∈ (download_playlist playlist output options fetch st).2.dirs ∧
    fsLookup (download_playlist playlist output options fetch st).2.files p
      = fsLookup (download_segments playlist (output ++ ofStr "_segments")
          options fetch st.files).1 p := by
  unfold download_playlist
  dsimp only
  constructor
  · by_cases hd : (output ++ ofStr "_segments") ∈ st.dirs <;> simp [hd]
  · rw [mergeGo_preserves _ _ _ _ _ _ hp]
    exact fsLookup_write_ne _ _ _ _ hp.symm

/-- C9 (amended, witness): after a fully successful run the scratch slot
path still resolves to what the download phase wrote. -/
theorem C9_scratch_never_removed_witness :
    (ofStr "out" ++ ofStr "_segments")
      ∈ (download_playlist c3Playlist (ofStr "out") ⟨4, 3, 0⟩
          (fun _ _ => some [1, 2]) ⟨[], []⟩).2.dirs ∧
    fsLookup (download_playlist c3Playlist (ofStr "out") ⟨4, 3, 0⟩
        (fun _ _ => some [1, 2]) ⟨[], []⟩).2.files (ofStr "out_segments/s1")
      = fsLookup (download_segments c3Playlist (ofStr "out" ++ ofStr "_segments")
          ⟨4, 3, 0⟩ (fun _ _ => some [1, 2]) []).1 (ofStr "out_segments/s1") :=
  C9_scratch_never_removed c3Playlist (ofStr "out") ⟨4, 3, 0⟩
    (fun _ _ => some [1, 2]) ⟨[], []⟩ (ofStr "out_segments/s1") (by decide)

/-- C9 (counterexample): a job that both completes all downloads and
reassembles successfully (`Ok`) leaves the scratch directory **and** its
slot file on disk — nothing is removed. -/
theorem C9_counterexample :
    (download_playlist c3Playlist (ofStr "out") ⟨4, 3, 0⟩
      (fun _ _ => some [1, 2]) ⟨[], []⟩).1 = .ok () ∧
    ofStr "out_segments" ∈ (download_playlist c3Playlist (ofStr "out") ⟨4, 3, 0⟩
      (fun _ _ => some [1, 2]) ⟨[], []⟩).2.dirs ∧
    fsLookup (download_playlist c3Playlist (ofStr "out") ⟨4, 3, 0⟩
        (fun _ _ => some [1, 2]) ⟨[], []⟩).2.files (ofStr "out_segments/s1")
      = some [1, 2] := by
  refine ⟨by decide, by decide, by decide⟩

/-! ### Claim C10 -/

/-- C10: starting a wave with every spawned task pending, in every reachable
state of the permit system at most `c` fetches hold a permit simultaneously
— the number of in-flight transfers never exceeds the concurrency limit. -/
theorem C10_concurrency_bound (c n : Nat) (s : SchedState)
    (h : SchedReach c ⟨List.replicate n TaskPhase.pending⟩ s) :
    inFlight s ≤ c := by
  apply schedReach_inFlight_le c _ s h
  have : inFlight ⟨List.replicate n TaskPhase.pending⟩ = 0 := by
    simp only [inFlight]
    rw [List.countP_eq_zero]
    intro a ha
    rw [List.eq_of_mem_replicate ha]
    decide
  omega

/-- C10 (witness): with limit 1 and two tasks, after one acquire the state
`[fetching, pending]` is reachable and has exactly one in-flight fetch. -/
theorem C10_concurrency_bound_witness :
    inFlight ⟨[TaskPhase.fetching, TaskPhase.pending]⟩ ≤ 1 :=
  C10_concurrency_bound 1 2 ⟨[TaskPhase.fetching, TaskPhase.pending]⟩
    (SchedReach.tail SchedReach.refl
      (SchedStep.acquire ⟨List.replicate 2 TaskPhase.pending⟩ 0 rfl
        (by decide)))

end Downloader

